import Mathlib

/-!
Verification development for the shadow-geometry / optical-flow code base
(`shadow_geometry.py`, `matching_tools_differential.py`, `shadow_filters.py`).

The Python source is shallowly embedded: numpy arrays become `List`s, float
arithmetic becomes exact `ℚ`/`ℝ` arithmetic (comparisons between square roots
of integers are replaced by the order-equivalent comparisons of the squared
quantities), and fallible operations return `Except`/`Option`.  Each
definition carries a comment pointing at the source lines it embeds.
-/

/-- Error taxonomy used by the embedded pipeline steps.
`ThresholdNotFound` models the `ValueError` raised by `max(dips)` on an empty
sequence; `InvalidMethod` models the `AssertionError` raised by
`enhance_shadows`; `ShapeMismatch` models numpy boolean-index shape errors. -/
inductive PipelineError where
  | ThresholdNotFound
  | InvalidMethod
  | ShapeMismatch
deriving DecidableEq, Repr

/-- Normalised Python slice endpoint: negative indices count from the end,
then the result is clamped into `[0, len]`. -/
def pyBound (len : ℕ) (i : ℤ) : ℕ :=
  min ((if i < 0 then (len : ℤ) + i else i).toNat) len

/-- Python list/array slicing `xs[a:b]`, as used in `findValley`. -/
def pySlice {α : Type} (xs : List α) (a b : ℤ) : List α :=
  (xs.take (pyBound xs.length b)).drop (pyBound xs.length a)

/-- Element of `values` at wrapped position `i` (mod the length), the access
pattern produced by `np.roll` in `findValley` (shadow_geometry.py:98-104). -/
def valAt (values : List ℤ) (i : ℤ) : ℤ :=
  values.getD (i % (values.length : ℤ)).toNat 0

/-- Column `i` of `concavP` (shadow_geometry.py:106): every sign of
`np.diff(wallP, n=1, axis=0)` equals `+1`, i.e.
`values[i-r-2] > values[i-r-1]` (with `np.roll` wraparound) for every diff
row `r < neighbors-1`.  Note that `values[i]` itself is never compared. -/
def concavPb (values : List ℤ) (neighbors : ℕ) (i : ℤ) : Bool :=
  (List.range (neighbors - 1)).all fun r =>
    decide (valAt values (i - (r : ℤ) - 1) < valAt values (i - (r : ℤ) - 2))

/-- Column `i` of `concavM` (shadow_geometry.py:107):
`values[i+r+2] > values[i+r+1]` (with wraparound) for every diff row
`r < neighbors-1`. -/
def concavMb (values : List ℤ) (neighbors : ℕ) (i : ℤ) : Bool :=
  (List.range (neighbors - 1)).all fun r =>
    decide (valAt values (i + (r : ℤ) + 1) < valAt values (i + (r : ℤ) + 2))

/-- `selec = np.all(np.vstack((concavP, concavM)), axis=0)`
(shadow_geometry.py:108), one Boolean per histogram bin. -/
def selecList (values : List ℤ) (neighbors : ℕ) : List Bool :=
  (List.range values.length).map fun (i : ℕ) =>
    concavPb values neighbors (i : ℤ) && concavMb values neighbors (i : ℤ)

/-- `findValley(values, base, neighbors)` (shadow_geometry.py:89-114):
`selec = selec[neighbors-1:-(neighbors+1)]`, `idx = base[neighbors-1:-(neighbors+2)]`,
`dips = idx[selec]`.  `none` models a raised Python exception: for
`neighbors ≤ 1` the local `concavP` is used without ever being assigned
(`UnboundLocalError`), and a mismatch between the boolean-mask length and the
indexed length makes numpy fail on `idx[selec]`. -/
def findValley (values : List ℤ) (base : List ℚ) (neighbors : ℕ) :
    Option (List ℚ) :=
  if neighbors ≤ 1 then none
  else if (pySlice (selecList values neighbors)
              ((neighbors : ℤ) - 1) (-((neighbors : ℤ) + 1))).length
          = (pySlice base ((neighbors : ℤ) - 1) (-((neighbors : ℤ) + 2))).length then
    some ((((pySlice base ((neighbors : ℤ) - 1) (-((neighbors : ℤ) + 2))).zip
            (pySlice (selecList values neighbors)
              ((neighbors : ℤ) - 1) (-((neighbors : ℤ) + 1)))).filter
          (fun p => p.2)).map (fun p => p.1))
  else none

/-- The set of bin centers claimed by the specification for the valley finder:
bin `i` is a local minimum strictly lower than its `k` neighbors on both
sides, with the counts monotonically decreasing toward the bin and increasing
after it (indices taken literally, no wraparound). -/
def specValleyCenters (values : List ℤ) (base : List ℚ) (k : ℕ) : List ℚ :=
  ((List.range values.length).filter fun (i : ℕ) =>
      decide (k ≤ i) && decide (i + k < values.length) &&
      ((List.range k).all fun (r : ℕ) =>
        decide (values.getD (i - r) 0 < values.getD (i - r - 1) 0)) &&
      ((List.range k).all fun (r : ℕ) =>
        decide (values.getD (i + r) 0 < values.getD (i + r + 1) 0))).map
    (fun i => (base.getD i 0 + base.getD (i + 1) 0) / 2)

/-- What the code actually requires left of bin `i`: the `neighbors-1`
differences among the left neighbors are all positive toward the bin,
computed with `np.roll` wraparound; `values[i]` itself does not occur. -/
def wrapDecreasingBefore (values : List ℤ) (k : ℕ) (i : ℤ) : Prop :=
  ∀ r : ℕ, r < k - 1 → valAt values (i - r - 1) < valAt values (i - r - 2)

/-- What the code actually requires right of bin `i` (wraparound included,
`values[i]` itself not compared). -/
def wrapIncreasingAfter (values : List ℤ) (k : ℕ) (i : ℤ) : Prop :=
  ∀ r : ℕ, r < k - 1 → valAt values (i + r + 1) < valAt values (i + r + 2)

lemma mem_map_fst_filter_snd_zip {α : Type} (idx : List α) (s : List Bool) (q : α) :
    q ∈ ((idx.zip s).filter (fun p => p.2)).map (fun p => p.1) ↔
      ∃ (j : ℕ) (h1 : j < idx.length) (h2 : j < s.length), idx[j] = q ∧ s[j] = true := by
  simp only [List.mem_map, List.mem_filter]
  constructor
  · rintro ⟨⟨x, b⟩, ⟨hmem, hb⟩, rfl⟩
    obtain ⟨j, hj, hget⟩ := List.mem_iff_getElem.mp hmem
    rw [List.getElem_zip] at hget
    rw [List.length_zip] at hj
    refine ⟨j, (by omega : j < idx.length), (by omega : j < s.length), ?_, ?_⟩
    · exact congrArg Prod.fst hget
    · have := congrArg Prod.snd hget
      simp only at this hb
      rw [this]; exact hb
  · rintro ⟨j, h1, h2, hq, hs⟩
    refine ⟨(idx[j], s[j]), ⟨?_, by simpa using hs⟩, by simpa using hq⟩
    rw [List.mem_iff_getElem]
    exact ⟨j, by rw [List.length_zip]; omega, by rw [List.getElem_zip]⟩

lemma concavPb_iff (values : List ℤ) (k : ℕ) (i : ℤ) :
    concavPb values k i = true ↔ wrapDecreasingBefore values k i := by
  simp [concavPb, wrapDecreasingBefore, List.all_eq_true, List.mem_range]

lemma concavMb_iff (values : List ℤ) (k : ℕ) (i : ℤ) :
    concavMb values k i = true ↔ wrapIncreasingAfter values k i := by
  simp [concavMb, wrapIncreasingAfter, List.all_eq_true, List.mem_range]

lemma selecList_length (values : List ℤ) (k : ℕ) :
    (selecList values k).length = values.length := by
  unfold selecList; rw [List.length_map, List.length_range]

lemma selecList_getElem (values : List ℤ) (k : ℕ) (i : ℕ)
    (h : i < (selecList values k).length) :
    (selecList values k)[i] =
      (concavPb values k (i : ℤ) && concavMb values k (i : ℤ)) := by
  unfold selecList
  rw [List.getElem_map, List.getElem_range]

/-- Claim C1, amended.  For `neighbors = k ≥ 2` and a histogram
(`base` one longer than `values`), `findValley` succeeds and returns the
*left bin edges* `base[i]` of exactly those interior indices
`k-1 ≤ i ≤ M-k-2` whose `k` left neighbors are monotonically decreasing
toward the bin and whose `k` right neighbors are monotonically increasing
away from it, computed with `np.roll` wraparound and *without ever comparing
the bin value `values[i]` itself*.  (For `k ≤ 1` the function raises, see the
counterexample.) -/
theorem C1_theorem (values : List ℤ) (base : List ℚ) (k : ℕ)
    (hk : 2 ≤ k) (hb : base.length = values.length + 1) :
    ∃ dips, findValley values base k = some dips ∧
      ∀ q : ℚ, q ∈ dips ↔ ∃ i : ℕ,
        k - 1 ≤ i ∧ (i : ℤ) + (k : ℤ) + 2 ≤ (values.length : ℤ) ∧
        wrapDecreasingBefore values k (i : ℤ) ∧
        wrapIncreasingAfter values k (i : ℤ) ∧
        q = base.getD i 0 := by
  set M := values.length with hM
  have hks : ¬ (k ≤ 1) := by omega
  have hAs : pyBound (selecList values k).length ((k : ℤ) - 1) = min (k-1) M := by
    unfold pyBound
    rw [if_neg (by omega : ¬ ((k : ℤ) - 1 < 0)), selecList_length]
    omega
  have hBs : pyBound (selecList values k).length (-((k : ℤ) + 1)) = M - (k+1) := by
    unfold pyBound
    rw [if_pos (by omega : -((k : ℤ) + 1) < 0), selecList_length]
    omega
  have hAi : pyBound base.length ((k : ℤ) - 1) = min (k-1) (M+1) := by
    unfold pyBound
    rw [if_neg (by omega : ¬ ((k : ℤ) - 1 < 0)), hb]
    omega
  have hBi : pyBound base.length (-((k : ℤ) + 2)) = M - (k+1) := by
    unfold pyBound
    rw [if_pos (by omega : -((k : ℤ) + 2) < 0), hb]
    omega
  have hslen : (pySlice (selecList values k) ((k : ℤ) - 1) (-((k : ℤ) + 1))).length
      = M - (k+1) - (k-1) := by
    unfold pySlice
    rw [List.length_drop, List.length_take, hAs, hBs, selecList_length]
    omega
  have hilen : (pySlice base ((k : ℤ) - 1) (-((k : ℤ) + 2))).length
      = M - (k+1) - (k-1) := by
    unfold pySlice
    rw [List.length_drop, List.length_take, hAi, hBi, hb]
    omega
  have hgets : ∀ (j : ℕ), (h : j < (pySlice (selecList values k) ((k : ℤ) - 1) (-((k : ℤ) + 1))).length) →
      (pySlice (selecList values k) ((k : ℤ) - 1) (-((k : ℤ) + 1)))[j]
        = (concavPb values k ((k - 1 + j : ℕ) : ℤ) && concavMb values k ((k - 1 + j : ℕ) : ℤ)) := by
    intro j h
    have hj : j < M - (k+1) - (k-1) := by rwa [hslen] at h
    unfold pySlice
    simp only [List.getElem_drop, List.getElem_take]
    have hidx : pyBound (selecList values k).length ((k : ℤ) - 1) + j = k - 1 + j := by
      rw [hAs]; omega
    simp only [hidx]
    rw [selecList_getElem]
  have hgeti : ∀ (j : ℕ), (h : j < (pySlice base ((k : ℤ) - 1) (-((k : ℤ) + 2))).length) →
      (pySlice base ((k : ℤ) - 1) (-((k : ℤ) + 2)))[j] = base.getD (k - 1 + j) 0 := by
    intro j h
    have hj : j < M - (k+1) - (k-1) := by rwa [hilen] at h
    unfold pySlice
    simp only [List.getElem_drop, List.getElem_take]
    have hidx : pyBound base.length ((k : ℤ) - 1) + j = k - 1 + j := by
      rw [hAi]; omega
    simp only [hidx]
    rw [List.getD_eq_getElem]
  refine ⟨(((pySlice base ((k : ℤ) - 1) (-((k : ℤ) + 2))).zip
            (pySlice (selecList values k) ((k : ℤ) - 1) (-((k : ℤ) + 1)))).filter
          (fun p => p.2)).map (fun p => p.1), ?_, ?_⟩
  · unfold findValley
    rw [if_neg hks, if_pos (by rw [hslen, hilen])]
  · intro q
    rw [mem_map_fst_filter_snd_zip]
    constructor
    · rintro ⟨j, h1, h2, hq, hsel⟩
      have hj : j < M - (k+1) - (k-1) := by rwa [hilen] at h1
      rw [hgets j h2, Bool.and_eq_true] at hsel
      refine ⟨k - 1 + j, by omega, by omega, ?_, ?_, ?_⟩
      · exact (concavPb_iff _ _ _).mp hsel.1
      · exact (concavMb_iff _ _ _).mp hsel.2
      · rw [← hq, hgeti j h1]
    · rintro ⟨i, hi1, hi2, hP, hM2, rfl⟩
      have hj : i - (k - 1) < M - (k+1) - (k-1) := by omega
      refine ⟨i - (k - 1), by rw [hilen]; omega, by rw [hslen]; omega, ?_, ?_⟩
      · rw [hgeti]
        congr 1
        omega
      · rw [hgets]
        rw [Bool.and_eq_true]
        have hik : (k - 1 + (i - (k-1)) : ℕ) = i := by omega
        rw [hik]
        exact ⟨(concavPb_iff _ _ _).mpr hP, (concavMb_iff _ _ _).mpr hM2⟩

/-- Claim C1 as stated is false on the code.  On the strictly increasing
histogram `values = [1,2,3,4,5,6]` with edges `base = [0,…,6]` and `k = 2`,
`findValley` returns the non-empty list `[1]` (a bin *edge*, produced by the
`np.roll` wraparound at index 1), while the claimed set of qualifying bin
centers is empty — in particular the "strictly monotonic ⇒ empty" part
fails.  Moreover for `k = 1` the function raises (`concavP` is never
assigned) instead of returning a set. -/
theorem C1_counterexample :
    findValley [1,2,3,4,5,6] [0,1,2,3,4,5,6] 2 = some [1] ∧
    specValleyCenters [1,2,3,4,5,6] [0,1,2,3,4,5,6] 2 = [] ∧
    findValley [1,2,3,4,5,6] [0,1,2,3,4,5,6] 1 = none := by
  refine ⟨?_, ?_, ?_⟩ <;> rfl

/-- Witness for `C1_theorem` at a concrete histogram. -/
theorem C1_witness :
    (2 ≤ 2 ∧ ([0,1,2,3,4,5,6] : List ℚ).length = ([1,2,3,4,5,6] : List ℤ).length + 1) ∧
    (∃ dips, findValley [1,2,3,4,5,6] [0,1,2,3,4,5,6] 2 = some dips ∧
      ∀ q : ℚ, q ∈ dips ↔ ∃ i : ℕ,
        2 - 1 ≤ i ∧ (i : ℤ) + (2 : ℤ) + 2 ≤ (([1,2,3,4,5,6] : List ℤ).length : ℤ) ∧
        wrapDecreasingBefore [1,2,3,4,5,6] 2 (i : ℤ) ∧
        wrapIncreasingAfter [1,2,3,4,5,6] 2 (i : ℤ) ∧
        q = ([0,1,2,3,4,5,6] : List ℚ).getD i 0) :=
  ⟨⟨by decide, by decide⟩,
    C1_theorem [1,2,3,4,5,6] [0,1,2,3,4,5,6] 2 (by decide) (by decide)⟩

/-- Python `max` over a non-empty collection (used as `val = max(dips)` in
`getShadowPolygon` (shadow_geometry.py:47) and `sturge`
(shadow_geometry.py:83)). -/
def listMaxQ (l : List ℚ) : ℚ :=
  match l with
  | [] => 0
  | x :: xs => xs.foldl max x

/-- The threshold-selection step shared by `getShadowPolygon`
(shadow_geometry.py:44-47) and `sturge` (shadow_geometry.py:80-84):
`dips = findValley(values, base, 2); val = max(dips)`.  Python `max` raises
`ValueError` on an empty sequence, the concrete form of the spec's
`ThresholdNotFound`. -/
def sturgeVal (values : List ℤ) (base : List ℚ) : Except PipelineError ℚ :=
  match findValley values base 2 with
  | none => .error .ShapeMismatch
  | some [] => .error .ThresholdNotFound
  | some (d :: ds) => .ok (ds.foldl max d)

/-- Claim C4, confirmed.  The shadow labeler's threshold step fails with
`ThresholdNotFound` (the `ValueError` from `max` on an empty sequence)
exactly when the valley finder returns an empty set; a non-empty valley set
never produces that failure, and no silent result is produced in the empty
case. -/
theorem C4_theorem (values : List ℤ) (base : List ℚ) :
    sturgeVal values base = .error .ThresholdNotFound ↔
      findValley values base 2 = some [] := by
  unfold sturgeVal
  rcases h : findValley values base 2 with - | dips
  · simp
  · rcases dips with - | ⟨d, ds⟩ <;> simp

/-- Witness for `C4_theorem`: a strictly decreasing histogram has no valley,
and the threshold step indeed fails with `ThresholdNotFound` there. -/
theorem C4_witness :
    sturgeVal [6,5,4,3,2,1] [0,1,2,3,4,5,6] = .error .ThresholdNotFound :=
  (C4_theorem [6,5,4,3,2,1] [0,1,2,3,4,5,6]).mpr (by rfl)

/-- Character-list prefix test (helper for the Python substring operator). -/
def listIsPre : List Char → List Char → Bool
  | [], _ => true
  | _ :: _, [] => false
  | a :: as, b :: bs => a == b && listIsPre as bs

/-- Python's `needle in hay` on strings: substring containment. -/
def pyInStr (needle hay : String) : Bool :=
  (List.range (hay.toList.length + 1)).any fun d =>
    listIsPre needle.toList (hay.toList.drop d)

/-- The filter that `enhance_shadows` dispatches to. -/
inductive ShadowFilter where
  | meanShift
  | kuwahara
  | median
  | anistropic
  | L0smoothing
deriving DecidableEq, Repr

/-- `enhance_shadows(Shw, method, **kwargs)` dispatch (shadow_filters.py:40-62).
Note that the second and third branches test `method in ('kuwahara')` and
`method in ('median')`: the parenthesised single string is not a tuple, so
Python performs *substring* containment.  The unmatched case is
`assert 1==2` (an `AssertionError`), the spec's `InvalidMethod`. -/
def enhance_shadows (method : String) : Except PipelineError ShadowFilter :=
  if method = "mean" ∨ method = "mean-shift" then .ok .meanShift
  else if pyInStr method "kuwahara" then .ok .kuwahara
  else if pyInStr method "median" then .ok .median
  else if method = "anistropic" ∨ method = "anistropic-diffusion" then .ok .anistropic
  else if method = "L0" ∨ method = "L0smoothing" then .ok .L0smoothing
  else .error .InvalidMethod

/-- Claim C3 as stated is false on the code: the method name `"uwa"` is not in
the spec's set `{mean, kuwahara, median, anisotropic, L0}` yet it applies the
Kuwahara filter (substring match) instead of failing with `InvalidMethod`;
conversely the spec's spelling `"anisotropic"` fails with `InvalidMethod`
instead of applying the anisotropic-diffusion filter. -/
theorem C3_counterexample :
    enhance_shadows "uwa" = .ok .kuwahara ∧
    ("uwa" ∉ (["mean", "kuwahara", "median", "anisotropic", "L0"] : List String)) ∧
    enhance_shadows "anisotropic" = .error .InvalidMethod := by
  refine ⟨by rfl, by decide, by rfl⟩

/-- Claim C3, amended.  `enhance_shadows` applies the mean-shift filter for
`mean`/`mean-shift`, the Kuwahara filter for any remaining *substring* of
`"kuwahara"`, the iterative median filter for any remaining substring of
`"median"`, anisotropic diffusion for `anistropic`/`anistropic-diffusion`
(the code's spelling), L0 smoothing for `L0`/`L0smoothing`, and fails with
`InvalidMethod` exactly for the method names accepted by none of these
tests. -/
theorem C3_theorem :
    (∀ method : String,
      enhance_shadows method = .error .InvalidMethod ↔
        ¬ (method = "mean" ∨ method = "mean-shift" ∨
           pyInStr method "kuwahara" = true ∨ pyInStr method "median" = true ∨
           method = "anistropic" ∨ method = "anistropic-diffusion" ∨
           method = "L0" ∨ method = "L0smoothing")) ∧
    enhance_shadows "mean" = .ok .meanShift ∧
    enhance_shadows "kuwahara" = .ok .kuwahara ∧
    enhance_shadows "median" = .ok .median ∧
    enhance_shadows "anistropic" = .ok .anistropic ∧
    enhance_shadows "L0" = .ok .L0smoothing := by
  refine ⟨?_, by rfl, by rfl, by rfl, by rfl, by rfl⟩
  intro method
  unfold enhance_shadows
  split_ifs with h1 h2 h3 h4 h5 <;> simp_all <;> tauto

/-- Squared pixel distance; the source compares
`np.sqrt((castI-ridgeI)**2 + (castJ-ridgeJ)**2)` values
(shadow_geometry.py:235-236), and comparisons of square roots of integers
coincide with comparisons of the squared quantities. -/
def dist2 (a b : ℤ × ℤ) : ℤ := (a.1 - b.1)^2 + (a.2 - b.2)^2

/-- Python `min`/`np.amin` of a non-empty integer collection. -/
def listMinZ : List ℤ → ℤ
  | [] => 0
  | [x] => x
  | x :: y :: xs => min x (listMinZ (y :: xs))

/-- The per-ridge-pixel hit selection of `labelOccluderAndCasted`
(shadow_geometry.py:227-241): given the candidate cast hits in scan order
(row-major `np.nonzero` order), if there is more than one, keep those at
minimal distance (`np.where(dist == np.amin(dist))`) and take the first
(`castI[0]`); with exactly one, take it; with none, select nothing. -/
def selectCast (r : ℤ × ℤ) (hits : List (ℤ × ℤ)) : Option (ℤ × ℤ) :=
  (if 1 < hits.length then
    hits.filter (fun h => dist2 r h = listMinZ (hits.map (dist2 r)))
  else hits).head?

/-- The write-out step (shadow_geometry.py:241-245): one (ridge, cast) record
per ridge pixel with a selected hit, offset back into full-image coordinates
by the bounding-box origin `(labImin, labJmin)`. -/
def emitCastPair (labI labJ : ℤ) (r : ℤ × ℤ) (hits : List (ℤ × ℤ)) :
    Option ((ℤ × ℤ) × (ℤ × ℤ)) :=
  (selectCast r hits).map fun c =>
    ((r.1 + labI, r.2 + labJ), (c.1 + labI, c.2 + labJ))

lemma listMinZ_le (l : List ℤ) : ∀ x ∈ l, listMinZ l ≤ x := by
  induction l with
  | nil => intro x hx; cases hx
  | cons a t ih =>
    intro x hx
    cases t with
    | nil => simp at hx; simp [listMinZ, hx]
    | cons b t' =>
      rcases List.mem_cons.mp hx with rfl | hx'
      · simp [listMinZ]
      · have := ih x hx'
        simp only [listMinZ]
        exact le_trans (min_le_right _ _) this

lemma listMinZ_mem (l : List ℤ) (h : l ≠ []) : listMinZ l ∈ l := by
  induction l with
  | nil => exact absurd rfl h
  | cons a t ih =>
    cases t with
    | nil => simp [listMinZ]
    | cons b t' =>
      simp only [listMinZ]
      rcases le_total a (listMinZ (b :: t')) with hle | hle
      · rw [min_eq_left hle]; exact List.mem_cons_self _ _
      · rw [min_eq_right hle]
        exact List.mem_cons_of_mem _ (ih (by simp))

lemma filter_head?_eq_find? {α : Type} (p : α → Bool) (l : List α) :
    (l.filter p).head? = l.find? p := by
  induction l with
  | nil => rfl
  | cons a t ih =>
    by_cases h : p a
    · simp [List.filter_cons, List.find?_cons, h]
    · simp only [List.filter_cons, List.find?_cons]
      rw [Bool.not_eq_true] at h
      simp [h, ih]

lemma selectCast_charact (r : ℤ × ℤ) (hits : List (ℤ × ℤ)) :
    (hits = [] → selectCast r hits = none) ∧
    (hits ≠ [] → ∃ c pre post,
      selectCast r hits = some c ∧ hits = pre ++ c :: post ∧
      (∀ h ∈ hits, dist2 r c ≤ dist2 r h) ∧
      (∀ h ∈ pre, dist2 r c < dist2 r h)) := by
  constructor
  · rintro rfl; rfl
  · intro hne
    by_cases hlen : 1 < hits.length
    · set m := listMinZ (hits.map (dist2 r)) with hm
      have hmem : m ∈ hits.map (dist2 r) :=
        listMinZ_mem _ (by simpa using hne)
      obtain ⟨c0, hc0, hc0d⟩ := List.mem_map.mp hmem
      have hfind : ∃ c, hits.find? (fun h => dist2 r h = m) = some c := by
        rcases hfound : hits.find? (fun h => dist2 r h = m) with - | c
        · exfalso
          have := List.find?_eq_none.mp hfound c0 hc0
          simp [hc0d] at this
        · exact ⟨c, rfl⟩
      obtain ⟨c, hc⟩ := hfind
      obtain ⟨hpc, i, hi, hgetc, hprev⟩ := List.find?_eq_some_iff_getElem.mp hc
      refine ⟨c, hits.take i, hits.drop (i+1), ?_, ?_, ?_, ?_⟩
      · unfold selectCast
        rw [if_pos hlen, filter_head?_eq_find?]
        exact hc
      · rw [← hgetc, List.getElem_cons_drop, List.take_append_drop]
      · intro h hh
        have : dist2 r c = m := by simpa using hpc
        rw [this]
        exact listMinZ_le _ _ (List.mem_map_of_mem _ hh)
      · intro h hh
        obtain ⟨j, hjlen, hjget⟩ := List.mem_iff_getElem.mp hh
        rw [List.length_take] at hjlen
        have hji : j < i := by omega
        have hne2 := hprev j hji
        rw [List.getElem_take] at hjget
        have hcm : dist2 r c = m := by simpa using hpc
        have hhm : dist2 r h ≠ m := by
          rw [← hjget]
          simpa using hne2
        have hle : m ≤ dist2 r h :=
          listMinZ_le _ _ (List.mem_map_of_mem _ (by rw [← hjget]; exact List.getElem_mem _))
        rw [hcm]
        omega
    · match hits, hne with
      | [c], _ =>
        refine ⟨c, [], [], by rfl, by rfl, ?_, by simp⟩
        intro h hh
        simp at hh
        simp [hh]
      | c1 :: c2 :: t, _ => simp at hlen

/-- Claim C2, confirmed at the per-ridge-pixel level.  A ridge pixel with no
candidate hit produces no record (and no error); a ridge pixel with at least
one hit produces exactly one record, whose casted pixel is the hit at minimum
Euclidean pixel distance, with ties broken by the first occurrence in scan
order (every hit strictly earlier in scan order is strictly farther). -/
theorem C2_theorem (labI labJ : ℤ) (r : ℤ × ℤ) (hits : List (ℤ × ℤ)) :
    (hits = [] → emitCastPair labI labJ r hits = none) ∧
    (hits ≠ [] → ∃ c pre post,
      emitCastPair labI labJ r hits
        = some ((r.1 + labI, r.2 + labJ), (c.1 + labI, c.2 + labJ)) ∧
      hits = pre ++ c :: post ∧
      (∀ h ∈ hits, dist2 r c ≤ dist2 r h) ∧
      (∀ h ∈ pre, dist2 r c < dist2 r h)) := by
  obtain ⟨h0, h1⟩ := selectCast_charact r hits
  constructor
  · intro he
    unfold emitCastPair
    rw [h0 he]
    rfl
  · intro hne
    obtain ⟨c, pre, post, hsel, hsplit, hmin, hpre⟩ := h1 hne
    refine ⟨c, pre, post, ?_, hsplit, hmin, hpre⟩
    unfold emitCastPair
    rw [hsel]
    rfl

/-- Witness for `C2_theorem`: ridge `(0,0)` with hits `[(1,1),(0,2),(1,-1)]`
(a distance tie between the first and the last). -/
theorem C2_witness :
    (([(1,1),(0,2),(1,-1)] : List (ℤ × ℤ)) ≠ []) ∧
    (∃ c pre post,
      emitCastPair 10 20 (0,0) [(1,1),(0,2),(1,-1)]
        = some (((0:ℤ) + 10, (0:ℤ) + 20), (c.1 + 10, c.2 + 20)) ∧
      ([(1,1),(0,2),(1,-1)] : List (ℤ × ℤ)) = pre ++ c :: post ∧
      (∀ h ∈ ([(1,1),(0,2),(1,-1)] : List (ℤ × ℤ)), dist2 (0,0) c ≤ dist2 (0,0) h) ∧
      (∀ h ∈ pre, dist2 (0,0) c < dist2 (0,0) h)) :=
  ⟨by decide, (C2_theorem 10 20 (0,0) [(1,1),(0,2),(1,-1)]).2 (by decide)⟩


/-- Squared planar distance; `shapely` `Point.distance` comparisons and the
zero test `i == 0` (shadow_geometry.py:343-344) are order-equivalent to the
squared quantities. -/
def pdist2 (p q : ℚ × ℚ) : ℚ := (p.1 - q.1) * (p.1 - q.1) + (p.2 - q.2) * (p.2 - q.2)

/-- `dists = [Point(c).distance(occluder) for c in castEnd]` followed by
`[Inf if i == 0 else i for i in dists]` (shadow_geometry.py:343-344); `none`
stands for the infinite distance assigned to degenerate zero-distance
points. -/
def infDists (o : ℚ × ℚ) (pts : List (ℚ × ℚ)) : List (Option ℚ) :=
  pts.map fun c => if pdist2 c o = 0 then none else some (pdist2 c o)

/-- Minimum of two distances where `none` is `float('Inf')`. -/
def minOpt : Option ℚ → Option ℚ → Option ℚ
  | none, b => b
  | some a, none => some a
  | some a, some b => some (min a b)

/-- Python `min(dists)` over distances with `Inf` (`none`) entries. -/
def listOptMin (ds : List (Option ℚ)) : Option ℚ := ds.foldr minOpt none

/-- Order on distances-with-infinity used to state minimality. -/
def optLE : Option ℚ → Option ℚ → Prop
  | none, none => True
  | none, some _ => False
  | some _, none => True
  | some x, some y => x ≤ y

/-- The per-ridge-pixel append decision and cast-point selection of
`listOccluderAndCasted` (shadow_geometry.py:338-346): a record is produced
only when `len(castEnd) > 1` (points counted *before* degeneracy filtering),
and the cast point is `castEnd[dists.index(min(dists))]` with zero distances
replaced by infinity. -/
def listCastSelect (o : ℚ × ℚ) (pts : List (ℚ × ℚ)) : Option (ℚ × ℚ) :=
  if 1 < pts.length then
    some (pts.getD ((infDists o pts).findIdx
      (fun d => d = listOptMin (infDists o pts))) (0, 0))
  else none

lemma listOptMin_eq_none_iff (ds : List (Option ℚ)) :
    listOptMin ds = none ↔ ∀ d ∈ ds, d = none := by
  induction ds with
  | nil => simp [listOptMin]
  | cons d t ih =>
    simp only [listOptMin, List.foldr_cons] at *
    cases d with
    | none => simp [minOpt, ih]
    | some a =>
      cases h : List.foldr minOpt none t <;> simp [minOpt]

lemma listOptMin_mem (ds : List (Option ℚ)) (h : listOptMin ds ≠ none) :
    listOptMin ds ∈ ds := by
  induction ds with
  | nil => simp [listOptMin] at h
  | cons d t ih =>
    simp only [listOptMin, List.foldr_cons] at *
    cases d with
    | none =>
      simp only [minOpt] at h ⊢
      exact List.mem_cons_of_mem _ (ih h)
    | some a =>
      cases ht : List.foldr minOpt none t with
      | none => simp [minOpt, ht]
      | some b =>
        rw [ht] at ih
        simp only [minOpt]
        rcases le_total a b with hab | hab
        · rw [min_eq_left hab]; exact List.mem_cons_self _ _
        · rw [min_eq_right hab]
          exact List.mem_cons_of_mem _ (ih (by simp))

lemma listOptMin_le (ds : List (Option ℚ)) : ∀ d ∈ ds, optLE (listOptMin ds) d := by
  induction ds with
  | nil => intro d hd; cases hd
  | cons e t ih =>
    intro d hd
    simp only [listOptMin, List.foldr_cons] at *
    rcases List.mem_cons.mp hd with rfl | hd'
    · cases d with
      | none =>
        cases ht : List.foldr minOpt none t <;> simp [minOpt, optLE]
      | some a =>
        cases ht : List.foldr minOpt none t with
        | none => simp [minOpt, optLE]
        | some b => simp [minOpt, optLE]
    · have := ih d hd'
      cases e with
      | none => simpa [minOpt] using this
      | some a =>
        cases ht : List.foldr minOpt none t with
        | none =>
          rw [ht] at this
          cases d with
          | none => simp [minOpt, optLE]
          | some c => exact absurd this (by simp [optLE])
        | some b =>
          rw [ht] at this
          cases d with
          | none => simp [minOpt, optLE]
          | some c =>
            simp only [optLE, minOpt] at this ⊢
            exact le_trans (min_le_right _ _) this

/-- Claim C6, amended.  A record is appended iff at least two intersection
points existed *before* degeneracy filtering (`len(castEnd) > 1`); the
selected cast point is an intersection point, and whenever at least one
non-zero-distance candidate exists the selected point has non-zero distance
and is nearest among the non-zero-distance candidates.  (When all candidates
are degenerate the first zero-distance point is still selected and appended,
see the counterexample.) -/
theorem C6_theorem (o : ℚ × ℚ) (pts : List (ℚ × ℚ)) :
    (listCastSelect o pts = none ↔ pts.length ≤ 1) ∧
    (∀ c, listCastSelect o pts = some c →
      c ∈ pts ∧
      ((∃ p ∈ pts, pdist2 p o ≠ 0) →
        pdist2 c o ≠ 0 ∧ ∀ p ∈ pts, pdist2 p o ≠ 0 → pdist2 c o ≤ pdist2 p o)) := by
  constructor
  · unfold listCastSelect
    by_cases h : 1 < pts.length
    · rw [if_pos h]; simp; omega
    · rw [if_neg h]; simp; omega
  · intro c hc
    unfold listCastSelect at hc
    by_cases h : 1 < pts.length
    swap
    · rw [if_neg h] at hc; cases hc
    rw [if_pos h] at hc
    set ds := infDists o pts with hds
    set k := ds.findIdx (fun d => d = listOptMin ds) with hk
    have hdlen : ds.length = pts.length := by
      rw [hds]; unfold infDists; rw [List.length_map]
    -- the predicate is satisfied somewhere in ds
    have hsat : ∃ d ∈ ds, (fun d => decide (d = listOptMin ds)) d = true := by
      cases hmin : listOptMin ds with
      | none =>
        have hne : ds ≠ [] := by
          intro hnil
          rw [hnil] at hdlen
          simp at hdlen
          omega
        obtain ⟨d, hd⟩ := List.exists_mem_of_ne_nil ds hne
        refine ⟨d, hd, ?_⟩
        have := (listOptMin_eq_none_iff ds).mp hmin d hd
        simp [this, hmin]
      | some m =>
        refine ⟨some m, ?_, by simp⟩
        rw [← hmin]
        exact listOptMin_mem ds (by rw [hmin]; simp)
    have hklt : k < ds.length := List.findIdx_lt_length_of_exists hsat
    have hkl2 : k < pts.length := by omega
    have hc2 : c = pts.getD k (0,0) := (Option.some.inj hc).symm
    have hck : c = pts[k] := by
      rw [hc2, List.getD_eq_getElem]
    have hdsk : ds[k] =
        (if pdist2 (pts[k]) o = 0 then none
         else some (pdist2 (pts[k]) o)) := by
      simp only [hds, infDists]
      rw [List.getElem_map]
    constructor
    · rw [hck]; exact List.getElem_mem _
    · rintro ⟨p0, hp0, hp0ne⟩
      have hsome : listOptMin ds ≠ none := by
        intro hnone
        have hall := (listOptMin_eq_none_iff ds).mp hnone
        have hmem : (if pdist2 p0 o = 0 then none else some (pdist2 p0 o)) ∈ ds := by
          rw [hds]; unfold infDists; exact List.mem_map_of_mem _ hp0
        have := hall _ hmem
        rw [if_neg hp0ne] at this
        cases this
      obtain ⟨m, hm⟩ := Option.ne_none_iff_exists'.mp hsome
      have hpk : (fun d => decide (d = listOptMin ds)) (ds[k]) = true := by
        simp only [hk]
        exact @List.findIdx_getElem _ (fun d => decide (d = listOptMin ds)) ds _
      have hdskmin : ds[k] = some m := by
        simpa [hm] using hpk
      rw [hdsk] at hdskmin
      by_cases hz : pdist2 (pts[k]) o = 0
      · rw [if_pos hz] at hdskmin; cases hdskmin
      rw [if_neg hz] at hdskmin
      have hcm : pdist2 c o = m := by
        rw [hck]; exact Option.some.inj hdskmin
      constructor
      · rw [hck]; exact hz
      · intro p hp hpne
        have hmemp : some (pdist2 p o) ∈ ds := by
          rw [hds]; unfold infDists
          have := List.mem_map_of_mem
            (fun c => if pdist2 c o = 0 then none else some (pdist2 c o)) hp
          simpa [hpne] using this
        have := listOptMin_le ds _ hmemp
        rw [hm] at this
        simp only [optLE] at this
        rw [hcm]
        exact this

/-- Claim C6 as stated is false on the code.  With ridge point `(0,0)` and
intersection points `[(0,0),(5,0)]`, only one candidate remains after
excluding the degenerate zero-distance point, yet a record is appended
(`len(castEnd) > 1` counts before filtering).  With `[(0,0),(0,0)]` no
candidate remains after filtering, yet a record is appended and the selected
cast point itself has zero distance. -/
theorem C6_counterexample :
    listCastSelect (0,0) [(0,0),(5,0)] = some (5,0) ∧
    (([((0:ℚ),(0:ℚ)),(5,0)]).filter (fun c => decide (pdist2 c (0,0) ≠ 0))).length = 1 ∧
    listCastSelect (0,0) [(0,0),(0,0)] = some (0,0) ∧
    pdist2 (0,0) (0,0) = 0 := by
  refine ⟨?_, ?_, ?_, ?_⟩
  · norm_num [listCastSelect, infDists, pdist2, listOptMin, minOpt,
      List.findIdx, List.findIdx.go]
    simp
  · norm_num [pdist2]
  · norm_num [listCastSelect, infDists, pdist2, listOptMin, minOpt,
      List.findIdx, List.findIdx.go]
  · norm_num [pdist2]

/-- Witness for `C6_theorem` at ridge `(0,0)` and points `[(0,0),(5,0)]`. -/
theorem C6_witness :
    ((5:ℚ),(0:ℚ)) ∈ ([((0:ℚ),(0:ℚ)),(5,0)] : List (ℚ × ℚ)) ∧
    pdist2 (5,0) (0,0) ≠ 0 ∧
    ∀ p ∈ ([((0:ℚ),(0:ℚ)),(5,0)] : List (ℚ × ℚ)),
      pdist2 p (0,0) ≠ 0 → pdist2 (5,0) (0,0) ≤ pdist2 p (0,0) := by
  have h := (C6_theorem (0,0) [(0,0),(5,0)]).2 (5,0)
    (by norm_num [listCastSelect, infDists, pdist2, listOptMin, minOpt,
          List.findIdx, List.findIdx.go]
        simp)
  have h2 := h.2 ⟨(5,0), by norm_num, by norm_num [pdist2]⟩
  exact ⟨h.1, h2.1, h2.2⟩

/-- The region mask of the vector pairer, `msk = labels > 1`
(shadow_geometry.py:272). -/
def vectorMask (labels : List (List ℤ)) : List (List Bool) :=
  labels.map fun row => row.map fun v => decide (1 < v)

/-- The set of label values the vector pairer's polygon loop processes
(shadow_geometry.py:279-282).  `rasterio.features.shapes(labels, mask=msk,
connectivity=8)` emits one polygon per connected region of constant value
among the pixels where the mask is true (library-documented behaviour), and
the loop body then keeps shapes with `val != 0`.  Hence exactly the label
values occurring at a pixel with `labels > 1` (and `≠ 0`) are processed. -/
def processedLabels (labels : List (List ℤ)) : List ℤ :=
  ((labels.flatten).filter fun v => decide (1 < v) && decide (v ≠ 0)).dedup

/-- Claim C5 is right and the code is wrong: the mask `msk = labels > 1`
excludes label 1, so a region labelled 1 is never vectorized or considered
for cast pairing, while a region labelled 2 is.  (The sibling raster pairer
uses `labeling >= 1`, and the loop's own `val != 0` test shows background
exclusion was intended to happen there, making `> 1` a slip for `>= 1`.) -/
theorem C5_theorem :
    vectorMask [[0,1],[1,1]] = [[false,false],[false,false]] ∧
    processedLabels [[0,1],[1,1]] = [] ∧
    processedLabels [[0,2],[2,2]] = [2] := by decide

/-- Shapes allocated by `simple_optical_flow` for a 2-D sample grid
(matching_tools_differential.py:111): `np.zeros((len(sampleI), len(sampleJ)))`
uses the number of *rows* of both grids. -/
def simpleFlowGridShape (sampleI sampleJ : List (List ℚ)) : ℕ × ℕ :=
  (sampleI.length, sampleJ.length)

/-- A Python value allocated for the output estimates: a 2-D array, or — by
the trailing comma in `Vgrd = np.zeros_like(Ugrd),`
(matching_tools_differential.py:112) — a 1-tuple containing an array. -/
inductive PyAlloc where
  | arr (shape : ℕ × ℕ)
  | tuple1 (shape : ℕ × ℕ)
deriving DecidableEq, Repr

/-- `Ugrd = np.zeros((len(sampleI), len(sampleJ)))`
(matching_tools_differential.py:111). -/
def ugrdAlloc (sampleI sampleJ : List (List ℚ)) : PyAlloc :=
  .arr (simpleFlowGridShape sampleI sampleJ)

/-- `Vgrd = np.zeros_like(Ugrd),` — note the trailing comma: a tuple
(matching_tools_differential.py:112). -/
def vgrdAlloc (sampleI sampleJ : List (List ℚ)) : PyAlloc :=
  .tuple1 (simpleFlowGridShape sampleI sampleJ)

/-- Whether `x[i,j] = v` is legal on the allocated value: Python tuples do
not support item assignment (`TypeError`). -/
def supportsItemAssign : PyAlloc → Bool
  | .arr _ => true
  | .tuple1 _ => false

/-- Claim C8 is right and the code is wrong (the docstring promises four
`(k,l)` arrays): for a 2×3 sample grid the allocated estimate grids have
shape `(2,2)` = `(len(sampleI), len(sampleJ))`, not `(2,3)`, and `Vgrd` is a
1-tuple (trailing comma), so the first in-window assignment
`Vgrd[iGrd,jGrd] = …` raises `TypeError` instead of returning four `(k,l)`
arrays. -/
theorem C8_theorem :
    simpleFlowGridShape [[0,0,0],[0,0,0]] [[0,0,0],[0,0,0]] = (2,2) ∧
    (2,2) ≠ (2,3) ∧
    supportsItemAssign (vgrdAlloc [[0,0,0],[0,0,0]] [[0,0,0],[0,0,0]]) = false := by
  refine ⟨by rfl, by decide, by rfl⟩


/-- One step of the residual-acceptance scan
(matching_tools_differential.py:254-256): `np.where(np.sign(res -
np.vstack(([1e3],res[:-1]))) == 1)` finds the first index whose residual
strictly exceeds its predecessor (sentinel `1e3` before the first), and
`res[:up_idx[0]]` truncates there. -/
def acceptedResAux : ℚ → List ℚ → List ℚ
  | _, [] => []
  | prev, r :: rs => if prev < r then [] else r :: acceptedResAux r rs

/-- The accepted residual prefix kept by `affine_optical_flow`. -/
def acceptedRes (res : List ℚ) : List ℚ := acceptedResAux 1000 res

/-- `np.min` over a non-empty rational collection. -/
def listMinQ : List ℚ → ℚ
  | [] => 0
  | [x] => x
  | x :: y :: xs => min x (listMinQ (y :: xs))

/-- `np.argmin`: the first index attaining the minimum. -/
def firstMinIdx (l : List ℚ) : ℕ := l.findIdx (fun x => x = listMinQ l)

/-- The result-selection step of `affine_optical_flow`
(matching_tools_differential.py:253-267).  Inputs: the per-iteration residual
list `res` and parameter stack `p_stack`.  If the accepted prefix is empty
(`res.size == 0` after truncation) the code returns the identity 2×2 matrix
`A`, `u = v = 0` and `snr = 0`; otherwise it rebuilds
`Aff = [[1,0,0],[0,1,0]] + p.reshape(3,2).T` from the minimum-residual
accepted iteration, returning `u = Aff[0,-1] = p[4]`, `v = Aff[1,-1] = p[5]`,
`A = inv(Aff[:,0:2]).T` and `snr = np.min(res)`.  (The 2×2 inverse is the
exact adjugate-over-determinant formula; `np.linalg.inv` would raise on a
singular matrix, a case the claim does not touch.) -/
def affineConverged (res : List ℚ) (pstack : List (List ℚ)) :
    ℚ × ℚ × ((ℚ × ℚ) × (ℚ × ℚ)) × ℚ :=
  match acceptedRes res with
  | [] => (0, 0, ((1, 0), (0, 1)), 0)
  | a :: as =>
    let k := firstMinIdx (a :: as)
    let p := pstack.getD k []
    let det := (1 + p.getD 0 0) * (1 + p.getD 3 0) - p.getD 2 0 * p.getD 1 0
    (p.getD 4 0, p.getD 5 0,
      (((1 + p.getD 3 0) / det, -(p.getD 1 0) / det),
       (-(p.getD 2 0) / det, (1 + p.getD 0 0) / det)),
      listMinQ (a :: as))

lemma listMinQ_le (l : List ℚ) : ∀ x ∈ l, listMinQ l ≤ x := by
  induction l with
  | nil => intro x hx; cases hx
  | cons a t ih =>
    intro x hx
    cases t with
    | nil => simp at hx; simp [listMinQ, hx]
    | cons b t' =>
      rcases List.mem_cons.mp hx with rfl | hx'
      · simp [listMinQ]
      · exact le_trans (min_le_right _ _) (ih x hx')

lemma listMinQ_mem (l : List ℚ) (h : l ≠ []) : listMinQ l ∈ l := by
  induction l with
  | nil => exact absurd rfl h
  | cons a t ih =>
    cases t with
    | nil => simp [listMinQ]
    | cons b t' =>
      simp only [listMinQ]
      rcases le_total a (listMinQ (b :: t')) with hle | hle
      · rw [min_eq_left hle]; exact List.mem_cons_self _ _
      · rw [min_eq_right hle]
        exact List.mem_cons_of_mem _ (ih (by simp))

lemma acceptedResAux_eq_nil_iff (prev : ℚ) (l : List ℚ) :
    acceptedResAux prev l = [] ↔ l = [] ∨ prev < l.headD 0 := by
  cases l with
  | nil => simp [acceptedResAux]
  | cons r rs =>
    simp only [acceptedResAux, List.headD_cons]
    by_cases h : prev < r
    · simp [h]
    · simp [h]

lemma acceptedResAux_prefix (prev : ℚ) (l : List ℚ) :
    ∃ rest, l = acceptedResAux prev l ++ rest := by
  induction l generalizing prev with
  | nil => exact ⟨[], rfl⟩
  | cons r rs ih =>
    simp only [acceptedResAux]
    by_cases h : prev < r
    · exact ⟨r :: rs, by simp [h]⟩
    · obtain ⟨rest, hrest⟩ := ih r
      exact ⟨rest, by simp [h]; exact hrest⟩

lemma acceptedResAux_chain (prev : ℚ) (l : List ℚ) :
    (∀ _ : 0 < (acceptedResAux prev l).length,
      (acceptedResAux prev l).getD 0 0 ≤ prev) ∧
    (∀ j, j + 1 < (acceptedResAux prev l).length →
      (acceptedResAux prev l).getD (j+1) 0 ≤ (acceptedResAux prev l).getD j 0) := by
  induction l generalizing prev with
  | nil => simp [acceptedResAux]
  | cons r rs ih =>
    simp only [acceptedResAux]
    by_cases h : prev < r
    · simp [h]
    · rw [if_neg h]
      push_neg at h
      obtain ⟨ih1, ih2⟩ := ih r
      constructor
      · intro _; simpa using h
      · intro j hj
        cases j with
        | zero =>
          simp only [List.getD_cons_succ, List.getD_cons_zero]
          simp only [List.length_cons] at hj
          exact ih1 (by omega)
        | succ j' =>
          simp only [List.getD_cons_succ]
          simp only [List.length_cons] at hj
          exact ih2 j' (by omega)

lemma firstMinIdx_spec (l : List ℚ) (hne : l ≠ []) :
    firstMinIdx l < l.length ∧
    l.getD (firstMinIdx l) 0 = listMinQ l ∧
    (∀ j, j < l.length → listMinQ l ≤ l.getD j 0) ∧
    (∀ j, j < firstMinIdx l → listMinQ l < l.getD j 0) := by
  have hsat : ∃ x ∈ l, (fun x => decide (x = listMinQ l)) x = true :=
    ⟨listMinQ l, listMinQ_mem l hne, by simp⟩
  have hlt : firstMinIdx l < l.length := List.findIdx_lt_length_of_exists hsat
  have hget : l.getD (firstMinIdx l) 0 = listMinQ l := by
    rw [List.getD_eq_getElem _ _ hlt]
    have := @List.findIdx_getElem _ (fun x => decide (x = listMinQ l)) l hlt
    simpa using this
  refine ⟨hlt, hget, ?_, ?_⟩
  · intro j hj
    rw [List.getD_eq_getElem _ _ hj]
    exact listMinQ_le l _ (List.getElem_mem hj)
  · intro j hj
    have hjl : j < l.length := lt_trans hj hlt
    have hne2 := @List.not_of_lt_findIdx _ (fun x => decide (x = listMinQ l)) l j hj
    rw [List.getD_eq_getElem _ _ hjl]
    have hle := listMinQ_le l _ (List.getElem_mem hjl)
    have : ¬ (l[j] = listMinQ l) := by simpa using hne2
    rcases lt_or_eq_of_le hle with h | h
    · exact h
    · exact absurd h.symm this

/-- Claim C7, confirmed.  The accepted prefix is an initial, weakly
decreasing prefix of the residual sequence (empty iff the sequence is empty
or its very first residual already exceeds the `1e3` sentinel); if it is
empty the estimator returns the identity 2×2 transform, zero displacement
and zero confidence without raising; otherwise it returns the parameters of
the (first) minimum-residual iteration within the accepted prefix, with
`snr` that minimal residual. -/
theorem C7_theorem (res : List ℚ) (pstack : List (List ℚ)) :
    (acceptedRes res = [] ↔ res = [] ∨ 1000 < res.headD 0) ∧
    (∃ rest, res = acceptedRes res ++ rest) ∧
    (∀ j, j + 1 < (acceptedRes res).length →
      (acceptedRes res).getD (j+1) 0 ≤ (acceptedRes res).getD j 0) ∧
    (acceptedRes res = [] →
      affineConverged res pstack = (0, 0, ((1, 0), (0, 1)), 0)) ∧
    (acceptedRes res ≠ [] →
      ∃ k, k < (acceptedRes res).length ∧
        (∀ j, j < (acceptedRes res).length →
          (acceptedRes res).getD k 0 ≤ (acceptedRes res).getD j 0) ∧
        (∀ j, j < k → (acceptedRes res).getD k 0 < (acceptedRes res).getD j 0) ∧
        (affineConverged res pstack).1 = (pstack.getD k []).getD 4 0 ∧
        (affineConverged res pstack).2.1 = (pstack.getD k []).getD 5 0 ∧
        (affineConverged res pstack).2.2.2 = (acceptedRes res).getD k 0) := by
  refine ⟨?_, ?_, ?_, ?_, ?_⟩
  · exact acceptedResAux_eq_nil_iff 1000 res
  · exact acceptedResAux_prefix 1000 res
  · exact (acceptedResAux_chain 1000 res).2
  · intro hemp
    unfold affineConverged
    rw [hemp]
  · intro hne
    rcases hacc : acceptedRes res with - | ⟨a, as⟩
    · exact absurd hacc hne
    obtain ⟨hlt, hget, hmin, hstrict⟩ := firstMinIdx_spec (a :: as) (by simp)
    refine ⟨firstMinIdx (a :: as), hlt, ?_, ?_, ?_, ?_, ?_⟩
    · intro j hj
      rw [hget]
      exact hmin j hj
    · intro j hj
      rw [hget]
      exact hstrict j hj
    · unfold affineConverged
      rw [hacc]
    · unfold affineConverged
      rw [hacc]
    · unfold affineConverged
      rw [hacc]
      simp only
      rw [hget]

/-- Witness for `C7_theorem`: residuals `[5,3,4,2]` give accepted prefix
`[5,3]`; the minimum-residual accepted iteration is index 1. -/
theorem C7_witness :
    (acceptedRes [5, 3, 4, 2] ≠ []) ∧
    (∃ k, k < (acceptedRes [5, 3, 4, 2]).length ∧
      (∀ j, j < (acceptedRes [5, 3, 4, 2]).length →
        (acceptedRes [5, 3, 4, 2]).getD k 0 ≤ (acceptedRes [5, 3, 4, 2]).getD j 0) ∧
      (∀ j, j < k → (acceptedRes [5, 3, 4, 2]).getD k 0 < (acceptedRes [5, 3, 4, 2]).getD j 0) ∧
      (affineConverged [5, 3, 4, 2] [[0,0,0,0,1,2],[0,0,0,0,7,9]]).1
        = (([[0,0,0,0,1,2],[0,0,0,0,7,9]] : List (List ℚ)).getD k []).getD 4 0 ∧
      (affineConverged [5, 3, 4, 2] [[0,0,0,0,1,2],[0,0,0,0,7,9]]).2.1
        = (([[0,0,0,0,1,2],[0,0,0,0,7,9]] : List (List ℚ)).getD k []).getD 5 0 ∧
      (affineConverged [5, 3, 4, 2] [[0,0,0,0,1,2],[0,0,0,0,7,9]]).2.2.2
        = (acceptedRes [5, 3, 4, 2]).getD k 0) :=
  ⟨by
    have h : acceptedRes [5, 3, 4, 2] = [5, 3] := by
      norm_num [acceptedRes, acceptedResAux]
    simp [h],
   (C7_theorem [5, 3, 4, 2] [[0,0,0,0,1,2],[0,0,0,0,7,9]]).2.2.2.2
     (by
       have h : acceptedRes [5, 3, 4, 2] = [5, 3] := by
         norm_num [acceptedRes, acceptedResAux]
       simp [h])⟩

/-- `np.round`: round half to even (numpy's banker's rounding), generic over
an ordered field with floors so the same definition serves exact rational and
real embeddings of the float computation. -/
def npRound {K : Type} [LinearOrderedField K] [FloorRing K] (x : K) : ℤ :=
  if x - ⌊x⌋ < 1/2 then ⌊x⌋
  else if (1 : K)/2 < x - ⌊x⌋ then ⌊x⌋ + 1
  else if ⌊x⌋ % 2 = 0 then ⌊x⌋ else ⌊x⌋ + 1

/-- `np.linspace(a, b, n)`. -/
def linspaceQ (a b : ℚ) (n : ℕ) : List ℚ :=
  if n = 0 then []
  else if n = 1 then [a]
  else (List.range n).map fun (i : ℕ) => a + (b - a) * (i : ℚ) / ((n : ℚ) - 1)

/-- The pixel-sampling branch of `hough_optical_flow`
(matching_tools_differential.py:317-323): for `sample_fraction >= 1` the
index set is `np.arange(0, sample_size)` (every pixel, in order); otherwise
`np.random.choice` draws a subsample, modelled here as consuming the
generator state `rng`. -/
def houghSampleIdx (sample_size : ℕ) (sample_fraction : ℚ) (rng : List ℕ) :
    List ℕ :=
  if 1 ≤ sample_fraction then List.range sample_size
  else (rng.map (· % sample_size)).take
    (npRound ((sample_size : ℚ) * sample_fraction)).toNat

/-- One vote-grid cell (matching_tools_differential.py:329-334): the sum over
sampled pixels of `1/(1+|rho - u·cos(theta) + v·sin(theta)|)`, taking the
precomputed per-pixel `rho`, `cos(theta)` and `sin(theta)` grids (flattened
row-major) as inputs. -/
def houghVoteCell (rho cosT sinT : List ℚ) (idx : List ℕ) (u v : ℚ) : ℚ :=
  (idx.map fun p =>
    1 / (1 + |rho.getD p 0 - u * cosT.getD p 0 + v * sinT.getD p 0|)).sum

/-- `np.max` analogue for the argmax scan. -/
def listMaxQb : List ℚ → ℚ
  | [] => 0
  | [x] => x
  | x :: y :: xs => max x (listMaxQb (y :: xs))

/-- `np.argmax`: first index attaining the maximum (row-major flattening). -/
def firstMaxIdx (l : List ℚ) : ℕ := l.findIdx (fun x => x = listMaxQb l)

/-- The winning parameter cell of `hough_optical_flow`
(matching_tools_differential.py:325-338): vote over the
`param_resol × param_resol` grid with `u[i,j] = linspace(-1,1)[j]`,
`v[i,j] = linspace(-1,1)[i]`, take `np.argmax` of the accumulated votes and
return `(u[ind], v[ind])`.  The subsequent `pol2cart(2*sqrt(u²+v²),
arctan2(v,u))` is a deterministic function of this winning cell. -/
def houghWinner (rho cosT sinT : List ℚ) (r : ℕ) (frac : ℚ) (rng : List ℕ) :
    ℚ × ℚ :=
  let idx := houghSampleIdx rho.length frac rng
  let lin := linspaceQ (-1) 1 r
  let votes := ((List.range r).map fun i =>
    (List.range r).map fun j =>
      houghVoteCell rho cosT sinT idx (lin.getD j 0) (lin.getD i 0)).flatten
  let w := firstMaxIdx votes
  (lin.getD (w % r) 0, lin.getD (w / r) 0)

/-- Claim C10, confirmed.  For `sample_fraction ≥ 1` the Hough estimator
visits every pixel in order (no random draw), and its result does not depend
on the random-generator state: two runs on equal inputs return equal winning
parameter cells, hence equal displacement estimates `(di, dj)`. -/
theorem C10_theorem (rho cosT sinT : List ℚ) (r : ℕ) (frac : ℚ)
    (rng1 rng2 : List ℕ) (hf : 1 ≤ frac) :
    houghSampleIdx rho.length frac rng1 = List.range rho.length ∧
    houghWinner rho cosT sinT r frac rng1 = houghWinner rho cosT sinT r frac rng2 := by
  constructor
  · unfold houghSampleIdx
    rw [if_pos hf]
  · unfold houghWinner houghSampleIdx
    simp only [if_pos hf]

/-- Witness for `C10_theorem` at a concrete grid and two different generator
states. -/
theorem C10_witness :
    (1 : ℚ) ≤ 1 ∧
    (houghSampleIdx ([1,2] : List ℚ).length 1 [3] = List.range ([1,2] : List ℚ).length ∧
     houghWinner [1,2] [1,1] [0,0] 2 1 [3] = houghWinner [1,2] [1,1] [0,0] 2 1 []) :=
  ⟨by norm_num, C10_theorem [1,2] [1,1] [0,0] 2 1 [3] [] (by norm_num)⟩



/-- `np.arange(start=a, stop=b, step=1)` over integers. -/
def intArange (a b : ℤ) : List ℤ :=
  (List.range (b - a).toNat).map fun (i : ℕ) => a + i

/-- The cast-ray index generation of `labelOccluderAndCasted`
(shadow_geometry.py:197-213) for a ridge pixel `(rI, rJ)` of an `m × n`
sub-image: hemisphere split on `abs(sunDir) > 90`, slope split on `dI > dJ`
(`dI = -cos(az)`, `dJ = -sin(az)` supplied by the caller), `np.arange` along
the stepping axis, `np.round` (half-to-even) of the cross coordinate, and
`np.flip` in the northern branches; the result is the list of `(row, col)`
pairs `zip(rr, cc)` that index `subCast`. -/
def rayPairs {K : Type} [LinearOrderedField K] [FloorRing K]
    (m n rI rJ : ℤ) (sunDir dI dJ : K) : List (ℤ × ℤ) :=
  if 90 < |sunDir| then
    if dJ < dI then
      (intArange 0 rI).zip
        ((((intArange 0 rI).map fun (r : ℤ) => npRound ((r : K) * dJ)).reverse).map
          (· + rJ))
    else
      ((((intArange 0 rJ).map fun (c : ℤ) => npRound ((c : K) * dI)).reverse).map
        (· + rI)).zip (intArange 0 rJ)
  else
    if dJ < dI then
      (intArange rI m).zip
        ((intArange rI m).map fun (r : ℤ) => npRound ((r : K) * dJ) + rJ)
    else
      ((intArange rJ n).map fun (c : ℤ) => npRound ((c : K) * dI) + rI).zip
        (intArange rJ n)

/-- The in-bounds filter `IN = (cc>=0)&(cc<=n)&(rr>=0)&(rr<=m)`
(shadow_geometry.py:216-217) — note the *inclusive* upper bounds. -/
def inBoundsIN (m n : ℤ) (p : ℤ × ℤ) : Bool :=
  decide (0 ≤ p.2) && decide (p.2 ≤ n) && decide (0 ≤ p.1) && decide (p.1 ≤ m)

/-- The ray indices kept after the in-bounds filter (`rr = rr[IN]`,
`cc = cc[IN]`, shadow_geometry.py:218-220), which are then written into the
`m × n` array `subCast` (shadow_geometry.py:221-224). -/
def keptPairs {K : Type} [LinearOrderedField K] [FloorRing K]
    (m n rI rJ : ℤ) (sunDir dI dJ : K) : List (ℤ × ℤ) :=
  (rayPairs m n rI rJ sunDir dI dJ).filter (inBoundsIN m n)

/-- `(row, col)` is a valid index of an `m × n` array. -/
def validIdx (m n : ℤ) (p : ℤ × ℤ) : Prop :=
  0 ≤ p.1 ∧ p.1 < m ∧ 0 ≤ p.2 ∧ p.2 < n

/-- Claim C9, amended.  Every index kept by the in-bounds filter satisfies
only the *inclusive* bounds `0 ≤ row ≤ m`, `0 ≤ col ≤ n`; a kept index is a
valid index of the `m × n` sub-image whenever it avoids the far boundary
(`row ≠ m` and `col ≠ n`).  Kept indices with `row = m` or `col = n` exist
(see the counterexample), and for those the rasterization `subCast[rr,cc]=1`
raises `IndexError`, so the skip branch is reachable. -/
theorem C9_theorem {K : Type} [LinearOrderedField K] [FloorRing K]
    (m n rI rJ : ℤ) (sunDir dI dJ : K) :
    ∀ p ∈ keptPairs m n rI rJ sunDir dI dJ,
      (0 ≤ p.1 ∧ p.1 ≤ m ∧ 0 ≤ p.2 ∧ p.2 ≤ n) ∧
      ((p.1 ≠ m ∧ p.2 ≠ n) → validIdx m n p) := by
  intro p hp
  unfold keptPairs at hp
  have hin := List.of_mem_filter hp
  unfold inBoundsIN at hin
  simp only [Bool.and_eq_true, decide_eq_true_eq] at hin
  obtain ⟨⟨⟨h1, h2⟩, h3⟩, h4⟩ := hin
  refine ⟨⟨h3, h4, h1, h2⟩, ?_⟩
  rintro ⟨hm, hn⟩
  exact ⟨h3, lt_of_le_of_ne h4 hm, h1, lt_of_le_of_ne h2 hn⟩

/-- Claim C9 as stated is false on the code.  For a 5×5 sub-image, ridge
pixel `(4, 2)` and azimuth `-135°` (so `dI = dJ = √2/2` and the northern
column-stepping branch is taken), the kept ray indices include `(5, 0)`,
which is *not* a valid index of the 5×5 sub-image: `subCast[rr,cc] = 1`
raises `IndexError` and the `continue` branch is reached. -/
theorem C9_counterexample :
    ¬ (∀ p ∈ keptPairs (K := ℝ) 5 5 4 2 (-135)
          (-(Real.cos ((-135) * Real.pi / 180)))
          (-(Real.sin ((-135) * Real.pi / 180))),
        validIdx 5 5 p) := by
  set s : ℝ := Real.sqrt 2 / 2 with hsdef
  have hsq : Real.sqrt 2 * Real.sqrt 2 = 2 :=
    Real.mul_self_sqrt (by norm_num)
  have hs1 : (1 : ℝ)/2 < s := by
    rw [hsdef]
    nlinarith [Real.sqrt_nonneg 2]
  have hs2 : s < 1 := by
    rw [hsdef]
    nlinarith [Real.sqrt_nonneg 2]
  have hs0 : (0 : ℝ) ≤ s := by positivity
  have hang : ((-135 : ℝ)) * Real.pi / 180 = -(Real.pi - Real.pi/4) := by ring
  have hcos : -(Real.cos ((-135 : ℝ) * Real.pi / 180)) = s := by
    rw [hang, Real.cos_neg, Real.cos_pi_sub, Real.cos_pi_div_four, neg_neg, hsdef]
  have hsin : -(Real.sin ((-135 : ℝ) * Real.pi / 180)) = s := by
    rw [hang, Real.sin_neg, Real.sin_pi_sub, Real.sin_pi_div_four, neg_neg, hsdef]
  have habs : (90 : ℝ) < |(-135 : ℝ)| := by
    rw [abs_of_nonpos (by norm_num)]
    norm_num
  have hnps : npRound s = 1 := by
    have hfl : ⌊s⌋ = (0 : ℤ) := by
      rw [Int.floor_eq_zero_iff]
      exact ⟨hs0, hs2⟩
    unfold npRound
    rw [hfl]
    push_cast
    rw [if_neg (by linarith), if_pos (by linarith)]
  have e0 : npRound ((((0:ℤ)) : ℝ) * s) = 0 := by
    unfold npRound
    push_cast
    rw [zero_mul]
    norm_num
  have e1 : npRound ((((1:ℤ)) : ℝ) * s) = 1 := by
    rw [show (((1:ℤ)) : ℝ) * s = s by push_cast; ring]
    exact hnps
  have hray : rayPairs (K := ℝ) 5 5 4 2 (-135) s s = [(5, 0), (4, 1)] := by
    unfold rayPairs
    rw [if_pos habs, if_neg (lt_irrefl s),
      show intArange 0 2 = [0, 1] from by decide]
    simp only [List.map_cons, List.map_nil, List.reverse_cons, List.reverse_nil,
      List.nil_append, List.cons_append, e0, e1]
    decide
  have hkept : keptPairs (K := ℝ) 5 5 4 2 (-135) s s = [(5, 0), (4, 1)] := by
    unfold keptPairs
    rw [hray]
    decide
  intro hall
  have := hall (5, 0) (by rw [hcos, hsin, hkept]; simp)
  unfold validIdx at this
  omega

/-- Witness for `C9_theorem`: azimuth `0°` from ridge `(1,1)` in a 3×3
sub-image keeps exactly the index `(0, 1)`, which satisfies the amended
bounds and, being off the far boundary, is valid. -/
theorem C9_witness :
    (((0 : ℤ), (1 : ℤ)) ∈ keptPairs (K := ℚ) 3 3 1 1 0 (-1) 0) ∧
    ((0 ≤ (0 : ℤ) ∧ (0 : ℤ) ≤ 3 ∧ 0 ≤ (1 : ℤ) ∧ (1 : ℤ) ≤ 3) ∧
      (((0 : ℤ) ≠ 3 ∧ (1 : ℤ) ≠ 3) → validIdx 3 3 (0, 1))) := by
  have f1 : npRound ((((1 : ℤ)) : ℚ) * (-1)) = -1 := by
    unfold npRound
    push_cast
    norm_num
  have f2 : npRound ((((2 : ℤ)) : ℚ) * (-1)) = -2 := by
    unfold npRound
    push_cast
    norm_num
  have hk : keptPairs (K := ℚ) 3 3 1 1 0 (-1) 0 = [(0, 1)] := by
    unfold keptPairs rayPairs
    rw [if_neg (by norm_num : ¬ ((90 : ℚ) < |(0 : ℚ)|)),
      if_neg (by norm_num : ¬ ((0 : ℚ) < -1)),
      show intArange 1 3 = [1, 2] from by decide]
    simp only [List.map_cons, List.map_nil, f1, f2]
    decide
  have hmem : ((0 : ℤ), (1 : ℤ)) ∈ keptPairs (K := ℚ) 3 3 1 1 0 (-1) 0 := by
    rw [hk]
    simp
  exact ⟨hmem, C9_theorem 3 3 1 1 0 (-1) 0 (0, 1) hmem⟩
